import Mathlib

/-!
Shallow embedding of `code_search_engine.py` from the repository
`abhijeetsinghCXT/ai-code-search-engine`.

The embedding covers the core components the specification describes:
the LRU result cache (`LRUCache`, backed in the source by a Python
`OrderedDict`), the metrics aggregator (`MetricsTracker`), the chunked
indexing pipeline, the persistence round trip, and the search
orchestrator (`CodeSearchEngine.search`).

Modelling conventions:
* A Python `OrderedDict` is modelled as an association list in recency
  order: the head is the least-recently-used binding, the last element
  the most-recently-used one.  `move_to_end` removes the binding and
  appends it; `popitem(last=False)` drops the head.
* Python floats (latencies, distances, scores) are modelled as `ℚ`
  with exact arithmetic.
* Wall-clock readings (`time.time()` differences, `datetime.now()`)
  are non-deterministic inputs and are passed as explicit parameters.
* The embedding model and the FAISS vector index are the black boxes
  the specification declares them to be: the index handle is an
  abstract type `ι` and its nearest-neighbour search is a parameter
  `nearest : ι → String → Nat → List (Int × ℚ)` returning the zipped
  `(position, distance)` pairs of `faiss_index.search`.  FAISS returns
  positions as signed integers (it pads with `-1` when fewer than
  `top_k` vectors exist), hence `Int`.
* A raised Python exception is modelled by an `Option`/`none` result.
-/

/-- One indexed unit, mirroring the dict appended in
`CodeSearchEngine.index_repository` (fields `file`, `repo`, `content`,
`line_start`, `line_end`). -/
structure CodeSnippet where
  file : String
  repo : String
  content : String
  line_start : Nat
  line_end : Nat
deriving DecidableEq, Repr

/-- One formatted search result, mirroring the dict appended in
`CodeSearchEngine.search` (snippet fields plus `similarity_score`). -/
structure SearchResult where
  file : String
  repo : String
  content : String
  line_start : Nat
  line_end : Nat
  similarity_score : ℚ
deriving DecidableEq, Repr

/-- The value stored in the result cache on a miss:
`{'results': results, 'search_time': search_time}`. -/
structure CacheEntry where
  results : List SearchResult
  search_time : ℚ
deriving DecidableEq, Repr

/-- State of `LRUCache`: the `OrderedDict` is the association list
`cache` in recency order (head = least recently used), together with
the fixed `capacity` and the cumulative `hits`/`misses` counters.  The
`threading.Lock` only serialises operations and has no sequential
content. -/
structure LRUCache (α β : Type) where
  cache : List (α × β)
  capacity : Nat
  hits : Nat
  misses : Nat
deriving Repr

/-- A fresh `LRUCache(capacity)`: empty dict, zero counters. -/
def LRUCache.empty (α β : Type) (capacity : Nat) : LRUCache α β :=
  { cache := [], capacity := capacity, hits := 0, misses := 0 }

/-- `LRUCache.get`: on a hit increment `hits`, move the binding to the
most-recent end (`move_to_end`) and return its value; on a miss
increment `misses` and return `None`. -/
def LRUCache.get {α β : Type} [DecidableEq α] (s : LRUCache α β) (k : α) :
    Option β × LRUCache α β :=
  match s.cache.lookup k with
  | some v =>
      (some v,
        { s with
          hits := s.hits + 1
          cache := s.cache.filter (fun p => p.1 ≠ k) ++ [(k, v)] })
  | none => (none, { s with misses := s.misses + 1 })

/-- `LRUCache.put`: `move_to_end` on an existing key followed by
`self.cache[key] = value` nets to removing any old binding for `key`
and appending the new binding at the most-recent end; then
`popitem(last=False)` drops the least-recent binding when the length
exceeds the capacity. -/
def LRUCache.put {α β : Type} [DecidableEq α] (s : LRUCache α β) (k : α) (v : β) :
    LRUCache α β :=
  let l := s.cache.filter (fun p => p.1 ≠ k) ++ [(k, v)]
  { s with cache := if s.capacity < l.length then l.drop 1 else l }

/-- One cache operation, for reasoning about arbitrary operation
sequences against the `LRUCache`. -/
inductive CacheOp (α β : Type) where
  | get (k : α)
  | put (k : α) (v : β)

/-- Run a sequence of cache operations, discarding `get` results. -/
def runOps {α β : Type} [DecidableEq α] :
    List (CacheOp α β) → LRUCache α β → LRUCache α β
  | [], s => s
  | CacheOp.get k :: ops, s => runOps ops (s.get k).2
  | CacheOp.put k v :: ops, s => runOps ops (s.put k v)

/-- Run a sequence of `put` operations, the value of key `k` being
`f k`. -/
def runPuts {α β : Type} [DecidableEq α] (f : α → β) :
    List α → LRUCache α β → LRUCache α β
  | [], s => s
  | k :: ks, s => runPuts f ks (s.put k (f k))

/-- Round-half-even of a rational to an integer, the rounding rule of
Python's builtin `round`. -/
def roundHalfEven (x : ℚ) : ℤ :=
  let f : ℤ := ⌊x⌋
  if x - f < 1 / 2 then f
  else if 1 / 2 < x - f then f + 1
  else if Even f then f else f + 1

/-- Python's `round(x, 2)`: round-half-even at two decimal places. -/
def pyRound2 (x : ℚ) : ℚ := (roundHalfEven (100 * x) : ℚ) / 100

/-- One record appended to `query_history` by
`MetricsTracker.record_query`.  The `timestamp` is the
`datetime.now().isoformat()` string, supplied as an explicit input. -/
structure QueryRecord where
  query : String
  time_ms : ℚ
  cached : Bool
  timestamp : String
deriving DecidableEq, Repr

/-- State of `MetricsTracker`: cumulative counters and the bounded
query history.  The lock has no sequential content. -/
structure MetricsTracker where
  total_queries : Nat
  total_search_time : ℚ
  queries_under_50ms : Nat
  queries_under_200ms : Nat
  query_history : List QueryRecord
deriving Repr

/-- A fresh `MetricsTracker()`: all counters zero, empty history. -/
def MetricsTracker.init : MetricsTracker :=
  { total_queries := 0, total_search_time := 0, queries_under_50ms := 0,
    queries_under_200ms := 0, query_history := [] }

/-- `MetricsTracker.record_query`: bump the counters (strict `< 50` and
`< 200` bucketing), append the record, and `pop(0)` the oldest record
when the history exceeds 1000 entries. -/
def MetricsTracker.record_query (m : MetricsTracker) (query : String)
    (search_time_ms : ℚ) (from_cache : Bool) (now : String) : MetricsTracker :=
  let h := m.query_history ++
    [{ query := query, time_ms := search_time_ms, cached := from_cache,
       timestamp := now }]
  { total_queries := m.total_queries + 1
    total_search_time := m.total_search_time + search_time_ms
    queries_under_50ms :=
      m.queries_under_50ms + if search_time_ms < 50 then 1 else 0
    queries_under_200ms :=
      m.queries_under_200ms + if search_time_ms < 200 then 1 else 0
    query_history := if 1000 < h.length then h.drop 1 else h }

/-- The dict returned by `MetricsTracker.get_stats`. -/
structure MetricsSnapshot where
  total_queries : Nat
  average_search_time_ms : ℚ
  queries_under_50ms : Nat
  queries_under_200ms : Nat
  sub_50ms_rate : ℚ
  sub_200ms_rate : ℚ
  recent_queries : List QueryRecord
deriving Repr

/-- `MetricsTracker.get_stats`: derived rates guarded against division
by zero, each rounded with `round(_, 2)`; `recent_queries` is the
Python slice `query_history[-10:]`, i.e. the suffix after dropping
`length - 10` elements. -/
def MetricsTracker.get_stats (m : MetricsTracker) : MetricsSnapshot :=
  let avg : ℚ :=
    if 0 < m.total_queries then m.total_search_time / m.total_queries else 0
  let sub50 : ℚ :=
    if 0 < m.total_queries then
      (m.queries_under_50ms : ℚ) / m.total_queries * 100 else 0
  let sub200 : ℚ :=
    if 0 < m.total_queries then
      (m.queries_under_200ms : ℚ) / m.total_queries * 100 else 0
  { total_queries := m.total_queries
    average_search_time_ms := pyRound2 avg
    queries_under_50ms := m.queries_under_50ms
    queries_under_200ms := m.queries_under_200ms
    sub_50ms_rate := pyRound2 sub50
    sub_200ms_rate := pyRound2 sub200
    recent_queries := m.query_history.drop (m.query_history.length - 10) }

/-- Run a sequence of `record_query` calls, each given as
`(query, time_ms, from_cache, timestamp)`. -/
def runRecords : List (String × ℚ × Bool × String) → MetricsTracker → MetricsTracker
  | [], m => m
  | (q, t, c, n) :: rs, m => runRecords rs (m.record_query q t c n)

/-- Truthiness of `'\n'.join(chunk_lines).strip()`: `str.strip` removes
leading and trailing whitespace, so the stripped join is non-empty
exactly when some character of some line is not whitespace (the
joining `'\n'` characters are themselves whitespace). -/
def chunkKeep (chunk_lines : List String) : Bool :=
  chunk_lines.any (fun l => l.toList.any (fun c => ¬ c.isWhitespace))

/-- The chunking loop of `CodeSearchEngine.index_repository`:
`for i in range(0, len(lines), 50)` takes the slice `lines[i:i+50]`,
keeps it only when its joined content has a non-whitespace character,
and records 1-based inclusive line numbers `i + 1 .. i + len(chunk)`. -/
def chunkGo (file repo : String) : List String → Nat → List CodeSnippet
  | [], _ => []
  | x :: xs, i =>
      let chunk_lines := (x :: xs).take 50
      (if chunkKeep chunk_lines then
        [{ file := file, repo := repo,
           content := "\n".intercalate chunk_lines,
           line_start := i + 1, line_end := i + chunk_lines.length }]
      else []) ++ chunkGo file repo ((x :: xs).drop 50) (i + 50)
termination_by l _ => l.length
decreasing_by simp [List.length_drop]; omega

/-- Chunk one file's lines (the result of `content.split('\n')`) into
the snippets appended to `code_snippets`. -/
def chunkFile (file repo : String) (lines : List String) : List CodeSnippet :=
  chunkGo file repo lines 0

/-- Python list indexing semantics for `snippets[idx]` with a possibly
negative `idx`: a negative index counts from the end; an index outside
`[-len, len)` raises `IndexError`, modelled as `none`. -/
def pyGet {γ : Type} (l : List γ) (i : Int) : Option γ :=
  let j : Int := if i < 0 then (l.length : Int) + i else i
  if 0 ≤ j then l.get? j.toNat else none

/-- The similarity transform of `CodeSearchEngine.search`:
`float(1 / (1 + distance))`. -/
def similarity (distance : ℚ) : ℚ := 1 / (1 + distance)

/-- Build one result dict from a snippet and its distance. -/
def mkResult (s : CodeSnippet) (distance : ℚ) : SearchResult :=
  { file := s.file, repo := s.repo, content := s.content,
    line_start := s.line_start, line_end := s.line_end,
    similarity_score := similarity distance }

/-- The result-formatting loop of `CodeSearchEngine.search`:
`for idx, distance in zip(indices[0], distances[0])`, appending a
result whenever `idx < len(self.code_snippets)` (a signed comparison —
negative positions pass it and index from the end of the list).  An
`IndexError` from `self.code_snippets[idx]` aborts the whole call
(`none`). -/
def formatResults (cands : List (Int × ℚ)) (snips : List CodeSnippet) :
    Option (List SearchResult) :=
  match cands with
  | [] => some []
  | (idx, distance) :: rest =>
      if idx < (snips.length : Int) then
        match pyGet snips idx with
        | none => none
        | some s => (formatResults rest snips).map (fun rs => mkResult s distance :: rs)
      else formatResults rest snips

/-- State of a `CodeSearchEngine` instance over an abstract vector
index handle type `ι` (the FAISS index is a black box).  The
`SentenceTransformer` model and the filesystem paths play no role in
the verified claims and are omitted; the remaining fields mirror the
constructor. -/
structure EngineState (ι : Type) where
  code_snippets : List CodeSnippet
  faiss_index : Option ι
  cache : LRUCache String CacheEntry
  metrics : MetricsTracker
  total_files_indexed : Nat
  total_lines_indexed : Nat
  total_repositories : Nat

/-- The cache key `hashlib.md5(f"{query}:{top_k}".encode()).hexdigest()`.
Only determinism of the digest matters to the verified claims, so the
md5 digest is modelled as the identity on the formatted string. -/
def cache_key (query : String) (top_k : Nat) : String :=
  query ++ ":" ++ toString top_k

/-- `CodeSearchEngine.search`.  `nearest` is the black-box
`faiss_index.search` composed with the query embedding, returning the
zipped `(position, distance)` candidates; `elapsed` is the wall-clock
reading `(time.time() - start_time) * 1000` of the miss path and `now`
the timestamp handed to the metrics record.  The first component is
`none` when the Python call raises (`IndexError` while formatting),
otherwise `some (results, search_time, from_cache)`; the second is the
engine state after the call. -/
def searchEngine {ι : Type} (nearest : ι → String → Nat → List (Int × ℚ))
    (elapsed : ℚ) (now : String) (s : EngineState ι)
    (query : String) (top_k : Nat) :
    Option (List SearchResult × ℚ × Bool) × EngineState ι :=
  match s.faiss_index with
  | none => (some ([], 0, false), s)
  | some h =>
      let key := cache_key query top_k
      match s.cache.get key with
      | (some entry, cache1) =>
          (some (entry.results, entry.search_time, true),
            { s with
              cache := cache1
              metrics :=
                s.metrics.record_query query entry.search_time true now })
      | (none, cache1) =>
          match formatResults (nearest h query top_k) s.code_snippets with
          | none => (none, { s with cache := cache1 })
          | some results =>
              (some (results, elapsed, false),
                { s with
                  cache := cache1.put key
                    { results := results, search_time := elapsed }
                  metrics := s.metrics.record_query query elapsed false now })

/-- The metadata document `save_index` writes (`metadata.json`): the
full snippet corpus and the aggregate counts. -/
structure IndexMetadata where
  code_snippets : List CodeSnippet
  total_files : Nat
  total_lines : Nat
  total_repositories : Nat
deriving DecidableEq, Repr

/-- `CodeSearchEngine.save_index`: persist the FAISS index blob (the
black-box serialisation of the handle) together with the metadata
document.  With no built index, `faiss.write_index(None, ...)` raises,
so the artifact is `none`. -/
def save_index {ι : Type} (s : EngineState ι) : Option (ι × IndexMetadata) :=
  s.faiss_index.map (fun h =>
    (h, { code_snippets := s.code_snippets,
          total_files := s.total_files_indexed,
          total_lines := s.total_lines_indexed,
          total_repositories := s.total_repositories }))

/-- `CodeSearchEngine.load_index`: with a missing artifact, report
`False` and leave the state alone; otherwise restore the FAISS handle,
the snippet corpus and the aggregate counts, and report `True`. -/
def load_index {ι : Type} (artifact : Option (ι × IndexMetadata))
    (s : EngineState ι) : Bool × EngineState ι :=
  match artifact with
  | none => (false, s)
  | some (h, m) =>
      (true,
        { s with
          faiss_index := some h
          code_snippets := m.code_snippets
          total_files_indexed := m.total_files
          total_lines_indexed := m.total_lines
          total_repositories := m.total_repositories })

section LruLemmas

variable {α β : Type} [DecidableEq α]

/-- Looking up `k` in a list with no binding for `k` followed by the
single binding `(k, v)` finds `v`. -/
theorem lookup_append_single (l : List (α × β)) (k : α) (v : β)
    (h : ∀ p ∈ l, p.1 ≠ k) : (l ++ [(k, v)]).lookup k = some v := by
  induction l with
  | nil => simp [List.lookup]
  | cons p t ih =>
      have hp : p.1 ≠ k := h p (List.mem_cons_self p t)
      have ht : ∀ q ∈ t, q.1 ≠ k := fun q hq => h q (List.mem_cons_of_mem p hq)
      obtain ⟨a, b⟩ := p
      simpa [List.lookup_cons, beq_false_of_ne (Ne.symm hp)] using ih ht

/-- Every binding surviving `filter (fun p => p.1 ≠ k)` has a key other
than `k`. -/
theorem keys_filter_ne (l : List (α × β)) (k : α) :
    ∀ p ∈ l.filter (fun p => p.1 ≠ k), p.1 ≠ k := by
  intro p hp
  have := (List.mem_filter.mp hp).2
  simpa using this

/-- After `put k v` on a cache of positive capacity, looking up `k`
finds `v`: the freshly appended binding is never the one evicted. -/
theorem LRUCache.lookup_put (s : LRUCache α β) (k : α) (v : β)
    (hcap : 1 ≤ s.capacity) : (s.put k v).cache.lookup k = some v := by
  unfold LRUCache.put
  set base := s.cache.filter (fun p => p.1 ≠ k) with hbase
  simp only []
  by_cases hlen : s.capacity < (base ++ [(k, v)]).length
  · simp only [hlen, if_true]
    have hb : 1 ≤ base.length := by
      simp only [List.length_append, List.length_cons, List.length_nil] at hlen
      omega
    rw [List.drop_append_of_le_length hb]
    refine lookup_append_single _ _ _ ?_
    intro p hp
    exact keys_filter_ne s.cache k p ((List.drop_sublist 1 base).subset hp)
  · simp only [hlen, if_false]
    exact lookup_append_single _ _ _ (keys_filter_ne s.cache k)

end LruLemmas

/-- C1: for every query `q` and `top_k ≥ 1`, on an engine whose index
is built, calling `search(q, top_k)` twice with no intervening rebuild
returns on the second call the same `results` and the same
`search_time_ms` as the first call (the cached original latency,
verbatim), with `from_cache = true` — whatever wall-clock reading `e2`
the second call would measure. -/
theorem search_repeat_hits_cache {ι : Type}
    (nearest : ι → String → Nat → List (Int × ℚ)) (e1 e2 : ℚ) (n1 n2 : String)
    (s : EngineState ι) (q : String) (top_k : Nat)
    (_htop : 1 ≤ top_k)
    (hidx : s.faiss_index.isSome)
    (hcap : 1 ≤ s.cache.capacity)
    (r1 : List SearchResult) (t1 : ℚ) (c1 : Bool)
    (h1 : (searchEngine nearest e1 n1 s q top_k).1 = some (r1, t1, c1)) :
    (searchEngine nearest e2 n2 (searchEngine nearest e1 n1 s q top_k).2 q top_k).1
      = some (r1, t1, true) := by
  cases hfi : s.faiss_index with
  | none => rw [hfi] at hidx; simp at hidx
  | some h =>
      cases hlk : s.cache.cache.lookup (cache_key q top_k) with
      | some entry =>
          simp only [searchEngine, hfi, LRUCache.get, hlk] at h1 ⊢
          rw [Option.some.injEq, Prod.mk.injEq, Prod.mk.injEq] at h1
          obtain ⟨hr, ht, -⟩ := h1
          have h2 :
              ((s.cache.cache.filter (fun p => p.1 ≠ cache_key q top_k)) ++
                [(cache_key q top_k, entry)]).lookup (cache_key q top_k)
                = some entry :=
            lookup_append_single _ _ _ (keys_filter_ne s.cache.cache _)
          simp only [h2]
          simp [hr, ← ht]
      | none =>
          cases hfmt : formatResults (nearest h q top_k) s.code_snippets with
          | none => simp [searchEngine, hfi, LRUCache.get, hlk, hfmt] at h1
          | some results =>
              simp only [searchEngine, hfi, LRUCache.get, hlk, hfmt] at h1 ⊢
              rw [Option.some.injEq, Prod.mk.injEq, Prod.mk.injEq] at h1
              obtain ⟨hr, ht, -⟩ := h1
              have h2 :
                  (({ s.cache with misses := s.cache.misses + 1 }.put
                      (cache_key q top_k)
                      { results := results, search_time := e1 }).cache).lookup
                    (cache_key q top_k)
                    = some { results := results, search_time := e1 } :=
                LRUCache.lookup_put _ _ _ hcap
              simp only [h2]
              simp [hr, ← ht]

/-- Witness for C1: a concrete engine with a built index; the first
call measures 5 ms, the second call (which would measure 7 ms) returns
the first call's results and latency with `from_cache = true`. -/
theorem search_repeat_hits_cache_witness :
    (searchEngine (ι := Unit) (fun _ _ _ => []) 7 "n2"
      (searchEngine (fun _ _ _ => []) 5 "n1"
        { code_snippets := [], faiss_index := some (),
          cache := LRUCache.empty String CacheEntry 1000,
          metrics := MetricsTracker.init, total_files_indexed := 0,
          total_lines_indexed := 0, total_repositories := 0 } "q" 1).2
      "q" 1).1 = some ([], 5, true) :=
  search_repeat_hits_cache (fun _ _ _ => []) 5 7 "n1" "n2" _ "q" 1
    (by decide) (by rfl) (by decide) [] 5 false (by rfl)

/-- C2 (code bug): FAISS pads its answer with position `-1` when the
index holds fewer than `top_k` vectors.  `-1` is not a valid position
into the SnippetStore, but the guard `idx < len(self.code_snippets)`
accepts it and `self.code_snippets[-1]` silently yields the *last*
snippet, so the out-of-bounds position is formatted into a result
instead of being skipped.  On a store of one snippet, the candidate
list `[(-1, 0.0)]` produces one formatted result (a copy of that
snippet) rather than the empty result list the claim requires. -/
theorem formatResults_accepts_negative_position :
    formatResults [((-1 : Int), 0)]
      [{ file := "a.py", repo := "r", content := "pass",
         line_start := 1, line_end := 1 }]
      = some [{ file := "a.py", repo := "r", content := "pass",
                line_start := 1, line_end := 1, similarity_score := 1 }] := by
  simp [formatResults, pyGet, mkResult, similarity]

section PutFold

variable {α β : Type} [DecidableEq α]

/-- `put` and `get` never change the capacity, so `runPuts` does not
either. -/
theorem runPuts_capacity (f : α → β) (ks : List α) (s : LRUCache α β) :
    (runPuts f ks s).capacity = s.capacity := by
  induction ks generalizing s with
  | nil => rfl
  | cons k ks ih => simpa [runPuts, LRUCache.put] using ih (s.put k (f k))

/-- Folding `put` over a list of keys fresh to the cache: the dict
afterwards is the old bindings followed by the new ones, with the
overflow dropped from the least-recently-used front. -/
theorem runPuts_cache (f : α → β) (ks : List α) :
    ∀ (l : List (α × β)) (cap hits misses : Nat),
      (l.map Prod.fst ++ ks).Nodup → l.length ≤ cap →
      (runPuts f ks ⟨l, cap, hits, misses⟩).cache
        = (l ++ ks.map (fun k => (k, f k))).drop (l.length + ks.length - cap) := by
  induction ks with
  | nil =>
      intro l cap hits misses _ hlen
      simp [runPuts, Nat.sub_eq_zero_of_le hlen]
  | cons k ks ih =>
      intro l cap hits misses hnd hlen
      have hk : k ∉ l.map Prod.fst := by
        rw [List.nodup_append] at hnd
        exact fun hmem => hnd.2.2 hmem (List.mem_cons_self _ _)
      have hfilter : l.filter (fun p => p.1 ≠ k) = l := by
        refine List.filter_eq_self.mpr ?_
        intro p hp
        simp only [ne_eq, decide_eq_true_eq]
        exact fun he => hk (he ▸ List.mem_map_of_mem Prod.fst hp)
      have hmapx : (l ++ [(k, f k)]).map Prod.fst = l.map Prod.fst ++ [k] := by
        simp
      have hbig : ((l ++ [(k, f k)]).map Prod.fst ++ ks).Nodup := by
        rw [hmapx, List.append_assoc, List.singleton_append]
        exact hnd
      simp only [runPuts]
      by_cases hc : cap < (l ++ [(k, f k)]).length
      · have hcl : l.length = cap := by
          simp only [List.length_append, List.length_cons, List.length_nil] at hc
          omega
        have hput : LRUCache.put ⟨l, cap, hits, misses⟩ k (f k)
            = ⟨(l ++ [(k, f k)]).drop 1, cap, hits, misses⟩ := by
          simp only [LRUCache.put, hfilter, if_pos hc]
        rw [hput]
        have hnd' : ((((l ++ [(k, f k)]).drop 1).map Prod.fst) ++ ks).Nodup :=
          hbig.sublist (((List.drop_sublist 1 _).map _).append_right _)
        have hlen' : ((l ++ [(k, f k)]).drop 1).length ≤ cap := by
          simp only [List.length_drop, List.length_append, List.length_cons,
            List.length_nil]
          omega
        rw [ih _ cap hits misses hnd' hlen']
        have hsplit : (l ++ [(k, f k)]).drop 1 ++ ks.map (fun k => (k, f k))
            = ((l ++ [(k, f k)]) ++ ks.map (fun k => (k, f k))).drop 1 :=
          (List.drop_append_of_le_length (by simp)).symm
        rw [hsplit, List.drop_drop]
        have hX : (l ++ [(k, f k)]) ++ ks.map (fun k => (k, f k))
            = l ++ (k :: ks).map (fun k => (k, f k)) := by
          simp
        have hidx : 1 + (((l ++ [(k, f k)]).drop 1).length + ks.length - cap)
            = l.length + (k :: ks).length - cap := by
          simp only [List.length_drop, List.length_append, List.length_cons,
            List.length_nil]
          omega
        rw [hX, hidx]
      · have hput : LRUCache.put ⟨l, cap, hits, misses⟩ k (f k)
            = ⟨l ++ [(k, f k)], cap, hits, misses⟩ := by
          simp only [LRUCache.put, hfilter, if_neg hc]
        rw [hput]
        have hlen' : (l ++ [(k, f k)]).length ≤ cap := by
          simp only [List.length_append, List.length_cons, List.length_nil] at hc ⊢
          omega
        rw [ih _ cap hits misses hbig hlen']
        have hX : (l ++ [(k, f k)]) ++ ks.map (fun k => (k, f k))
            = l ++ (k :: ks).map (fun k => (k, f k)) := by
          simp
        have hidx : (l ++ [(k, f k)]).length + ks.length - cap
            = l.length + (k :: ks).length - cap := by
          simp only [List.length_append, List.length_cons, List.length_nil]
          omega
        rw [hX, hidx]

end PutFold

section LruInvariant

variable {α β : Type} [DecidableEq α]

/-- A successful lookup means the key is among the dict's keys. -/
theorem mem_keys_of_lookup (l : List (α × β)) (k : α) (v : β)
    (h : l.lookup k = some v) : k ∈ l.map Prod.fst := by
  induction l with
  | nil => simp [List.lookup] at h
  | cons p t ih =>
      obtain ⟨a, b⟩ := p
      rw [List.lookup_cons] at h
      cases hab : k == a with
      | true => simp [eq_of_beq hab]
      | false =>
          rw [hab] at h
          exact List.mem_cons_of_mem _ (ih h)

/-- Removing a present key strictly shrinks the dict. -/
theorem length_filter_lt_of_mem_keys (l : List (α × β)) (k : α)
    (h : k ∈ l.map Prod.fst) :
    (l.filter (fun p => p.1 ≠ k)).length < l.length := by
  obtain ⟨p, hp, hpk⟩ := List.mem_map.mp h
  refine List.length_filter_lt_length_iff_exists.mpr ⟨p, hp, ?_⟩
  simp [hpk]

/-- `get` never grows the dict. -/
theorem LRUCache.length_get_le (s : LRUCache α β) (k : α) :
    (s.get k).2.cache.length ≤ s.cache.length := by
  unfold LRUCache.get
  cases hlk : s.cache.lookup k with
  | none => simp
  | some v =>
      simp only [List.length_append, List.length_cons, List.length_nil]
      have := length_filter_lt_of_mem_keys s.cache k (mem_keys_of_lookup _ _ _ hlk)
      omega

/-- `put` keeps the dict within capacity. -/
theorem LRUCache.length_put_le (s : LRUCache α β) (k : α) (v : β)
    (h : s.cache.length ≤ s.capacity) :
    (s.put k v).cache.length ≤ s.capacity := by
  unfold LRUCache.put
  have hf : (s.cache.filter (fun p => p.1 ≠ k)).length ≤ s.cache.length :=
    List.length_filter_le _ _
  simp only []
  split
  · simp only [List.length_drop, List.length_append, List.length_cons,
      List.length_nil]
    omega
  · rename_i hc
    simp only [List.length_append, List.length_cons, List.length_nil,
      not_lt] at hc ⊢
    omega

/-- `get` and `put` leave the capacity untouched, so any operation
sequence does. -/
theorem runOps_capacity (ops : List (CacheOp α β)) (s : LRUCache α β) :
    (runOps ops s).capacity = s.capacity := by
  induction ops generalizing s with
  | nil => rfl
  | cons op ops ih =>
      cases op with
      | get k =>
          rw [show runOps (CacheOp.get k :: ops) s = runOps ops (s.get k).2
            from rfl, ih]
          unfold LRUCache.get
          cases s.cache.lookup k <;> rfl
      | put k v =>
          rw [show runOps (CacheOp.put k v :: ops) s = runOps ops (s.put k v)
            from rfl, ih]
          rfl

/-- The dict never exceeds the capacity across any operation
sequence. -/
theorem runOps_length_le (ops : List (CacheOp α β)) (s : LRUCache α β)
    (h : s.cache.length ≤ s.capacity) :
    (runOps ops s).cache.length ≤ s.capacity := by
  induction ops generalizing s with
  | nil => exact h
  | cons op ops ih =>
      cases op with
      | get k =>
          have h1 : (s.get k).2.cache.length ≤ (s.get k).2.capacity := by
            have hcap : (s.get k).2.capacity = s.capacity := by
              unfold LRUCache.get
              cases s.cache.lookup k <;> rfl
            rw [hcap]
            exact le_trans (LRUCache.length_get_le s k) h
          have hcap : (s.get k).2.capacity = s.capacity := by
            unfold LRUCache.get
            cases s.cache.lookup k <;> rfl
          simpa [runOps, hcap] using ih (s.get k).2 h1
      | put k v =>
          have h1 : (s.put k v).cache.length ≤ (s.put k v).capacity :=
            LRUCache.length_put_le s k v h
          simpa [runOps] using ih (s.put k v) h1

end LruInvariant

section LruClaims

variable {α β : Type} [DecidableEq α]

/-- Filtering out a key that is not bound leaves the dict unchanged. -/
theorem filter_ne_of_fresh (l : List (α × β)) (k : α)
    (hk : k ∉ l.map Prod.fst) : l.filter (fun p => p.1 ≠ k) = l := by
  refine List.filter_eq_self.mpr ?_
  intro p hp
  simp only [ne_eq, decide_eq_true_eq]
  exact fun he => hk (he ▸ List.mem_map_of_mem Prod.fst hp)

/-- A key among the dict's keys is found by lookup. -/
theorem lookup_of_mem_keys (l : List (α × β)) (k : α)
    (h : k ∈ l.map Prod.fst) : ∃ v, l.lookup k = some v := by
  induction l with
  | nil => simp at h
  | cons p t ih =>
      obtain ⟨a, b⟩ := p
      rw [List.lookup_cons]
      cases hab : k == a with
      | true => exact ⟨b, rfl⟩
      | false =>
          refine ih ?_
          simp only [List.map_cons, List.mem_cons] at h
          rcases h with h | h
          · exact absurd (beq_iff_eq.mpr h) (by simp [hab])
          · exact h

/-- C4: the LRU cache of capacity `C` never exceeds `C` entries after
any operation sequence from a fresh cache; a `put` of a fresh key into
a full cache drops exactly the head of the recency list — the
least-recently-used binding — and leaves exactly `C` entries; and
inserting `C + 1` distinct keys into a fresh cache leaves exactly the
last `C` of them, the first-inserted (least-recently-accessed) key
being the one absent. -/
theorem lru_capacity_eviction (C : Nat) :
    (∀ (ops : List (CacheOp α β)),
      (runOps ops (LRUCache.empty α β C)).cache.length ≤ C)
    ∧ (∀ (s : LRUCache α β) (k : α) (v : β),
        s.capacity = C → 1 ≤ C → s.cache.length = C →
        k ∉ s.cache.map Prod.fst →
        (s.put k v).cache = s.cache.tail ++ [(k, v)]
          ∧ (s.put k v).cache.length = C)
    ∧ (∀ (ks : List α) (f : α → β),
        ks.Nodup → ks.length = C + 1 →
        (runPuts f ks (LRUCache.empty α β C)).cache.map Prod.fst = ks.drop 1
          ∧ (runPuts f ks (LRUCache.empty α β C)).cache.length = C) := by
  refine ⟨?_, ?_, ?_⟩
  · intro ops
    exact runOps_length_le ops (LRUCache.empty α β C) (by simp [LRUCache.empty])
  · intro s k v hcapC hC hfull hfresh
    have hfilter := filter_ne_of_fresh s.cache k hfresh
    have hc : s.capacity < (s.cache ++ [(k, v)]).length := by
      simp only [List.length_append, List.length_cons, List.length_nil]
      omega
    have hput : (s.put k v).cache = (s.cache ++ [(k, v)]).drop 1 := by
      simp only [LRUCache.put, hfilter]
      simp only [if_pos hc]
    constructor
    · rw [hput, List.drop_append_of_le_length (by omega), List.drop_one]
    · rw [hput]
      simp only [List.length_drop, List.length_append, List.length_cons,
        List.length_nil]
      omega
  · intro ks f hnd hlenks
    have h := runPuts_cache f ks [] C 0 0 (by simpa using hnd) (by simp)
    have hshape :
        (runPuts f ks (LRUCache.empty α β C)).cache
          = (ks.map (fun k => (k, f k))).drop 1 := by
      rw [show LRUCache.empty α β C = ⟨[], C, 0, 0⟩ from rfl, h]
      simp [hlenks]
    constructor
    · rw [hshape, List.map_drop, List.map_map,
        show (Prod.fst ∘ fun k => (k, f k) : α → α) = id from rfl,
        List.map_id, List.drop_one]
    · rw [hshape]
      simp [hlenks]

/-- Witness for C4: a full cache of capacity 2 holding `a` (least
recent) and `b`; putting the fresh key `c` evicts exactly `a`. -/
theorem lru_capacity_eviction_witness :
    ((⟨[("a", (1 : Nat)), ("b", 2)], 2, 0, 0⟩ : LRUCache String Nat).put
        "c" 3).cache = [("b", 2), ("c", 3)]
      ∧ ((⟨[("a", (1 : Nat)), ("b", 2)], 2, 0, 0⟩ :
          LRUCache String Nat).put "c" 3).cache.length = 2 := by
  have h := (lru_capacity_eviction (α := String) (β := Nat) 2).2.1
    ⟨[("a", 1), ("b", 2)], 2, 0, 0⟩ "c" 3 rfl (by omega) rfl (by decide)
  simpa using h

end LruClaims

/-- The filtered-out key is absent from the filtered dict's keys. -/
theorem not_mem_keys_filter {α β : Type} [DecidableEq α]
    (l : List (α × β)) (k : α) :
    k ∉ (l.filter (fun p => p.1 ≠ k)).map Prod.fst := by
  intro h
  obtain ⟨p, hp, hpk⟩ := List.mem_map.mp h
  exact keys_filter_ne l k p hp hpk

/-- C5: LRU recency is by access, not insertion: starting from a
well-formed cache state holding key `k`, performing `get k` and then
any sequence of `put`s of fresh distinct keys, if `k` has been evicted
then every originally resident key other than `k` has been evicted as
well — `k` outlives every resident key not accessed after it. -/
theorem lru_get_refreshes_recency {α β : Type} [DecidableEq α]
    (s : LRUCache α β) (k : α) (ks : List α) (f : α → β)
    (hnd : (s.cache.map Prod.fst).Nodup)
    (hlen : s.cache.length ≤ s.capacity)
    (hk : k ∈ s.cache.map Prod.fst)
    (hks : ks.Nodup)
    (hfresh : ∀ x ∈ ks, x ∉ s.cache.map Prod.fst)
    (hout : k ∉ (runPuts f ks (s.get k).2).cache.map Prod.fst) :
    ∀ x ∈ s.cache.map Prod.fst,
      x ∉ (runPuts f ks (s.get k).2).cache.map Prod.fst ∨ x = k := by
  obtain ⟨v, hv⟩ := lookup_of_mem_keys s.cache k hk
  have hgets : (s.get k).2
      = ⟨s.cache.filter (fun p => p.1 ≠ k) ++ [(k, v)],
         s.capacity, s.hits + 1, s.misses⟩ := by
    simp [LRUCache.get, hv]
  set F := s.cache.filter (fun p => p.1 ≠ k) with hF
  set L := F ++ [(k, v)] with hL
  have hFsub : (F.map Prod.fst).Sublist (s.cache.map Prod.fst) :=
    (List.filter_sublist s.cache).map Prod.fst
  have hLkeys : L.map Prod.fst = F.map Prod.fst ++ [k] := by simp [hL]
  have hndL : (L.map Prod.fst ++ ks).Nodup := by
    rw [hLkeys]
    rw [List.append_assoc, List.singleton_append]
    refine List.nodup_append.mpr ⟨hnd.sublist hFsub, ?_, ?_⟩
    · exact List.nodup_cons.mpr ⟨fun hmem => hfresh k hmem hk, hks⟩
    · intro x hxF hxkks
      rcases List.mem_cons.mp hxkks with heq | hxks
      · rw [heq] at hxF
        exact not_mem_keys_filter s.cache k hxF
      · exact hfresh x hxks (hFsub.subset hxF)
  have hFlt : F.length < s.cache.length := length_filter_lt_of_mem_keys _ _ hk
  have hlenL : L.length ≤ s.capacity := by
    simp only [hL, List.length_append, List.length_cons, List.length_nil]
    omega
  have hrun := runPuts_cache f ks L s.capacity (s.hits + 1) s.misses hndL hlenL
  rw [hgets] at hout ⊢
  rw [hrun] at hout ⊢
  set M := ks.map (fun x => (x, f x)) with hM
  set d := L.length + ks.length - s.capacity with hd
  by_cases hdL : L.length ≤ d
  · obtain ⟨e, he⟩ : ∃ e, d = L.length + e := ⟨d - L.length, by omega⟩
    have hdrop : (L ++ M).drop d = M.drop e := by rw [he, List.drop_append]
    rw [hdrop] at hout ⊢
    intro x hx
    by_cases hxk : x = k
    · exact Or.inr hxk
    · refine Or.inl fun hmem => ?_
      have hxks : x ∈ ks := by
        have h1 : x ∈ (M.map Prod.fst).drop e := by
          rw [← List.map_drop]
          exact hmem
        have h2 : x ∈ M.map Prod.fst := (List.drop_sublist e _).subset h1
        rw [hM, List.map_map,
          show (Prod.fst ∘ fun x => (x, f x) : α → α) = id from rfl,
          List.map_id] at h2
        exact h2
      exact hfresh x hxks hx
  · exfalso
    apply hout
    have hdF : d ≤ F.length := by
      simp only [hL, List.length_append, List.length_cons, List.length_nil] at hdL ⊢
      omega
    have hdrop : (L ++ M).drop d = (F.drop d ++ [(k, v)]) ++ M := by
      rw [List.drop_append_of_le_length (by simp [hL]; omega), hL,
        List.drop_append_of_le_length hdF]
    rw [hdrop]
    refine List.mem_map.mpr ⟨(k, v), ?_, rfl⟩
    simp

/-- Witness for C5: capacity 2, `a` least recent behind `b`; after
`get a` and two fresh inserts `c, d`, the just-accessed `a` is gone
only because everything untouched (`b`) is gone too. -/
theorem lru_get_refreshes_recency_witness :
    "b" ∉ (runPuts (fun _ => (9 : Nat)) ["c", "d"]
        ((⟨[("a", 1), ("b", 2)], 2, 0, 0⟩ :
          LRUCache String Nat).get "a").2).cache.map Prod.fst
      ∨ "b" = "a" :=
  lru_get_refreshes_recency
    ⟨[("a", 1), ("b", 2)], 2, 0, 0⟩ "a" ["c", "d"] (fun _ => 9)
    (by decide) (by decide) (by decide) (by decide) (by decide) (by decide)
    "b" (by decide)

/-- C3 counterexample: on an engine with no built index, `search`
completes and returns `([], 0, False)` without ever calling
`record_query` — `total_queries` stays 0 instead of increasing by
one, refuting the claim for this completed call. -/
theorem search_no_index_skips_record :
    (searchEngine (ι := Unit) (fun _ _ _ => []) 0 "t"
        ⟨[], none, LRUCache.empty String CacheEntry 1000,
          MetricsTracker.init, 0, 0, 0⟩ "q" 1).1
      = some ([], 0, false)
    ∧ (searchEngine (ι := Unit) (fun _ _ _ => []) 0 "t"
        ⟨[], none, LRUCache.empty String CacheEntry 1000,
          MetricsTracker.init, 0, 0, 0⟩ "q" 1).2.metrics.total_queries
      = 0 :=
  ⟨rfl, rfl⟩

/-- C3 amended: on an engine whose index is built, every `search` call
that completes (returns instead of raising) invokes `record_query`
exactly once — the resulting metrics state is one `record_query`
application to the previous one, and `total_queries` increases by
exactly one — whether the call is a cache hit or a miss. -/
theorem search_records_once {ι : Type}
    (nearest : ι → String → Nat → List (Int × ℚ)) (elapsed : ℚ) (now : String)
    (s : EngineState ι) (q : String) (top_k : Nat)
    (hidx : s.faiss_index.isSome)
    (hdone : (searchEngine nearest elapsed now s q top_k).1.isSome) :
    (∃ t c, (searchEngine nearest elapsed now s q top_k).2.metrics
        = s.metrics.record_query q t c now)
    ∧ (searchEngine nearest elapsed now s q top_k).2.metrics.total_queries
        = s.metrics.total_queries + 1 := by
  cases hfi : s.faiss_index with
  | none => rw [hfi] at hidx; simp at hidx
  | some h =>
      cases hlk : s.cache.cache.lookup (cache_key q top_k) with
      | some entry =>
          simp only [searchEngine, hfi, LRUCache.get, hlk]
          exact ⟨⟨entry.search_time, true, rfl⟩, rfl⟩
      | none =>
          cases hfmt : formatResults (nearest h q top_k) s.code_snippets with
          | none =>
              rw [show (searchEngine nearest elapsed now s q top_k).1 = none by
                simp [searchEngine, hfi, LRUCache.get, hlk, hfmt]] at hdone
              simp at hdone
          | some results =>
              simp only [searchEngine, hfi, LRUCache.get, hlk, hfmt]
              exact ⟨⟨elapsed, false, rfl⟩, rfl⟩

/-- Witness for C3's amended claim: a concrete miss-path call bumps
`total_queries` from 0 to 1. -/
theorem search_records_once_witness :
    (searchEngine (ι := Unit) (fun _ _ _ => []) 5 "t"
        ⟨[], some (), LRUCache.empty String CacheEntry 1000,
          MetricsTracker.init, 0, 0, 0⟩ "q" 1).2.metrics.total_queries
      = MetricsTracker.init.total_queries + 1 :=
  (search_records_once (fun _ _ _ => []) 5 "t"
    ⟨[], some (), LRUCache.empty String CacheEntry 1000,
      MetricsTracker.init, 0, 0, 0⟩ "q" 1 rfl (by rfl)).2

/-- Folding `record_query` over a batch of records accumulates the
query count, the total latency, and the strict sub-50ms count. -/
theorem runRecords_counters (rs : List (String × ℚ × Bool × String)) :
    ∀ m : MetricsTracker,
      (runRecords rs m).total_queries = m.total_queries + rs.length
      ∧ (runRecords rs m).total_search_time
          = m.total_search_time + (rs.map (fun r => r.2.1)).sum
      ∧ (runRecords rs m).queries_under_50ms
          = m.queries_under_50ms
            + ((rs.map (fun r => r.2.1)).filter (fun t => t < 50)).length := by
  induction rs with
  | nil => intro m; simp [runRecords]
  | cons r rs ih =>
      intro m
      obtain ⟨q, t, c, n⟩ := r
      obtain ⟨h1, h2, h3⟩ := ih (m.record_query q t c n)
      refine ⟨?_, ?_, ?_⟩
      · rw [show runRecords ((q, t, c, n) :: rs) m
            = runRecords rs (m.record_query q t c n) from rfl, h1]
        simp only [MetricsTracker.record_query, List.length_cons]
        omega
      · rw [show runRecords ((q, t, c, n) :: rs) m
            = runRecords rs (m.record_query q t c n) from rfl, h2]
        simp only [MetricsTracker.record_query, List.map_cons, List.sum_cons]
        ring
      · rw [show runRecords ((q, t, c, n) :: rs) m
            = runRecords rs (m.record_query q t c n) from rfl, h3]
        simp only [MetricsTracker.record_query, List.map_cons, List.filter_cons]
        by_cases ht : t < 50
        · simp [ht]
          omega
        · simp [ht]

/-- C6 counterexample: three queries with latencies 1, 1, 0 have exact
average 2/3, but `get_stats` reports `round(2/3, 2) = 0.67` — the
reported `average_search_time_ms` is the two-decimal rounding, not
`sum(t)/N` exactly. -/
theorem metrics_average_not_exact :
    (MetricsTracker.get_stats (runRecords
      [("a", 1, false, "t1"), ("b", 1, false, "t2"), ("c", 0, false, "t3")]
      MetricsTracker.init)).average_search_time_ms ≠ (1 + 1 + 0) / 3 := by
  norm_num [runRecords, MetricsTracker.record_query, MetricsTracker.get_stats,
    MetricsTracker.init, pyRound2, roundHalfEven]

/-- C6 amended: after `N ≥ 1` queries recorded with latencies
`t1..tN`, `get_stats` reports `average_search_time_ms` equal to
`sum(t)/N` rounded to two decimal places (Python `round`, half-even),
and `queries_under_50ms` equal to the count of latencies strictly
below 50 (exactly 50.0 excluded); with no queries recorded the
average and both SLA rates are reported as 0, not an error. -/
theorem metrics_stats_formulas (rs : List (String × ℚ × Bool × String))
    (hne : rs ≠ []) :
    (MetricsTracker.get_stats (runRecords rs MetricsTracker.init)).average_search_time_ms
        = pyRound2 ((rs.map (fun r => r.2.1)).sum / rs.length)
    ∧ (MetricsTracker.get_stats (runRecords rs MetricsTracker.init)).queries_under_50ms
        = ((rs.map (fun r => r.2.1)).filter (fun t => t < 50)).length
    ∧ (MetricsTracker.get_stats MetricsTracker.init).average_search_time_ms = 0
    ∧ (MetricsTracker.get_stats MetricsTracker.init).sub_50ms_rate = 0
    ∧ (MetricsTracker.get_stats MetricsTracker.init).sub_200ms_rate = 0 := by
  obtain ⟨h1, h2, h3⟩ := runRecords_counters rs MetricsTracker.init
  rw [show MetricsTracker.init.total_queries = 0 from rfl, Nat.zero_add] at h1
  rw [show MetricsTracker.init.total_search_time = 0 from rfl, zero_add] at h2
  rw [show MetricsTracker.init.queries_under_50ms = 0 from rfl,
    Nat.zero_add] at h3
  have hlen : 0 < rs.length := List.length_pos.mpr hne
  refine ⟨?_, ?_, ?_, ?_, ?_⟩
  · simp only [MetricsTracker.get_stats, h1, h2]
    rw [if_pos hlen]
  · simp only [MetricsTracker.get_stats, h3]
  · norm_num [MetricsTracker.get_stats, MetricsTracker.init, pyRound2,
      roundHalfEven]
  · norm_num [MetricsTracker.get_stats, MetricsTracker.init, pyRound2,
      roundHalfEven]
  · norm_num [MetricsTracker.get_stats, MetricsTracker.init, pyRound2,
      roundHalfEven]

/-- Witness for C6's amended claim: one query at 60 ms — reported
average 60 (rounding is the identity here) and zero sub-50ms
queries. -/
theorem metrics_stats_formulas_witness :
    (MetricsTracker.get_stats (runRecords [("a", 60, false, "t")]
        MetricsTracker.init)).average_search_time_ms = 60
    ∧ (MetricsTracker.get_stats (runRecords [("a", 60, false, "t")]
        MetricsTracker.init)).queries_under_50ms = 0 := by
  obtain ⟨h1, h2, -⟩ := metrics_stats_formulas [("a", 60, false, "t")] (by simp)
  refine ⟨?_, ?_⟩
  · rw [h1]
    norm_num [pyRound2, roundHalfEven]
  · rw [h2]
    norm_num

/-- Unfolding `chunkGo` on a non-empty line list: one chunk slice of
at most 50 lines, kept when non-blank, then recursion on the rest. -/
theorem chunkGo_cons (file repo x : String) (xs : List String) (i : Nat) :
    chunkGo file repo (x :: xs) i
      = (if chunkKeep ((x :: xs).take 50) then
          [{ file := file, repo := repo,
             content := "\n".intercalate ((x :: xs).take 50),
             line_start := i + 1,
             line_end := i + ((x :: xs).take 50).length }]
        else []) ++ chunkGo file repo ((x :: xs).drop 50) (i + 50) := by
  rw [chunkGo]

/-- `chunkGo` on an empty line list yields nothing. -/
theorem chunkGo_nil (file repo : String) (i : Nat) :
    chunkGo file repo [] i = [] := by
  rw [chunkGo]

/-- `chunkGo` on a non-empty line list, without naming the head. -/
theorem chunkGo_ne_nil (file repo : String) (ls : List String)
    (hne : ls ≠ []) (i : Nat) :
    chunkGo file repo ls i
      = (if chunkKeep (ls.take 50) then
          [{ file := file, repo := repo,
             content := "\n".intercalate (ls.take 50),
             line_start := i + 1,
             line_end := i + (ls.take 50).length }]
        else []) ++ chunkGo file repo (ls.drop 50) (i + 50) := by
  obtain ⟨x, xs, rfl⟩ := List.exists_cons_of_ne_nil hne
  exact chunkGo_cons file repo x xs i

/-- A file whose every line is entirely whitespace produces no chunks:
every slice fails the `chunkKeep` test. -/
theorem chunkGo_blank (file repo : String) :
    ∀ (n : Nat) (ls : List String), ls.length ≤ n →
      (∀ l ∈ ls, l.toList.all Char.isWhitespace = true) →
      ∀ i, chunkGo file repo ls i = [] := by
  intro n
  induction n with
  | zero =>
      intro ls hl _ i
      rw [List.length_eq_zero.mp (Nat.le_zero.mp hl), chunkGo_nil]
  | succ n ih =>
      intro ls hl hb i
      cases ls with
      | nil => rw [chunkGo_nil]
      | cons x xs =>
          rw [chunkGo_cons]
          have hk : chunkKeep ((x :: xs).take 50) = false := by
            unfold chunkKeep
            refine List.any_eq_false.mpr ?_
            intro l hlmem
            have hall := hb l ((List.take_sublist 50 _).subset hlmem)
            simp only [List.all_eq_true] at hall
            simp [List.any_eq_false, hall]
            intro c hc
            exact hall c hc
          rw [hk]
          simp only [Bool.false_eq_true, if_false, List.nil_append]
          refine ih ((x :: xs).drop 50) ?_ ?_ (i + 50)
          · simp only [List.length_drop, List.length_cons]
            simp only [List.length_cons] at hl
            omega
          · intro l hlmem
            exact hb l ((List.drop_sublist 50 _).subset hlmem)

/-- C7: a file of exactly 120 lines whose three 50-line slices each
contain a non-whitespace character chunks into exactly 3 snippets
with 1-based inclusive line ranges [1,50], [51,100], [101,120]; a
file consisting only of whitespace lines yields zero snippets. -/
theorem chunking_line_ranges (file repo : String) :
    (∀ lines : List String, lines.length = 120 →
      chunkKeep (lines.take 50) = true →
      chunkKeep ((lines.drop 50).take 50) = true →
      chunkKeep ((lines.drop 100).take 50) = true →
      (chunkFile file repo lines).map (fun c => (c.line_start, c.line_end))
        = [(1, 50), (51, 100), (101, 120)])
    ∧ (∀ lines : List String,
        (∀ l ∈ lines, l.toList.all Char.isWhitespace = true) →
        chunkFile file repo lines = []) := by
  constructor
  · intro lines h120 hk1 hk2 hk3
    have hne1 : lines ≠ [] := by
      intro h
      rw [h] at h120
      simp at h120
    have hd50 : (lines.drop 50).length = 70 := by
      rw [List.length_drop, h120]
    have hne2 : lines.drop 50 ≠ [] := by
      intro h
      rw [h] at hd50
      simp at hd50
    have hd100 : ((lines.drop 50).drop 50).length = 20 := by
      rw [List.drop_drop, List.length_drop, h120]
    have hne3 : (lines.drop 50).drop 50 ≠ [] := by
      intro h
      rw [h] at hd100
      simp at hd100
    have hnil : ((lines.drop 50).drop 50).drop 50 = [] := by
      refine List.drop_eq_nil_of_le ?_
      rw [hd100]
      omega
    have hk3' : chunkKeep (((lines.drop 50).drop 50).take 50) = true := by
      rw [List.drop_drop]
      exact hk3
    unfold chunkFile
    rw [chunkGo_ne_nil file repo lines hne1 0,
      chunkGo_ne_nil file repo (lines.drop 50) hne2 (0 + 50),
      chunkGo_ne_nil file repo ((lines.drop 50).drop 50) hne3 (0 + 50 + 50),
      hnil, chunkGo_nil, hk1, hk2, hk3']
    have hl1 : (lines.take 50).length = 50 := by
      rw [List.length_take, h120]
      omega
    have hl2 : ((lines.drop 50).take 50).length = 50 := by
      rw [List.length_take, hd50]
      omega
    have hl3 : (((lines.drop 50).drop 50).take 50).length = 20 := by
      rw [List.length_take, hd100]
      omega
    simp [hl1, hl2, hl3, List.length_take, List.length_drop, h120]
  · intro lines hb
    exact chunkGo_blank file repo lines.length lines le_rfl hb 0

/-- Witness for C7: 120 lines of `x` chunk into the three stated
ranges, and a single blank line yields no snippets. -/
theorem chunking_line_ranges_witness :
    (chunkFile "f.py" "r" (List.replicate 120 "x")).map
        (fun c => (c.line_start, c.line_end))
      = [(1, 50), (51, 100), (101, 120)]
    ∧ chunkFile "f.py" "r" [" "] = [] :=
  ⟨(chunking_line_ranges "f.py" "r").1 (List.replicate 120 "x") (by simp)
      (by decide) (by decide) (by decide),
    (chunking_line_ranges "f.py" "r").2 [" "] (by decide)⟩

/-- C8: the similarity transform `1 / (1 + distance)` maps distance 0
to score 1 and distance 1 to score 1/2, lies in (0, 1] for every
distance `d ≥ 0`, is strictly decreasing in the distance, and is
exactly the `similarity_score` carried by every result the formatting
loop produces from its candidate's distance. -/
theorem similarity_score_formula :
    similarity 0 = 1
    ∧ similarity 1 = 1 / 2
    ∧ (∀ d : ℚ, 0 ≤ d → 0 < similarity d ∧ similarity d ≤ 1)
    ∧ (∀ d₁ d₂ : ℚ, 0 ≤ d₁ → d₁ < d₂ → similarity d₂ < similarity d₁)
    ∧ (∀ (cands : List (Int × ℚ)) (snips : List CodeSnippet)
        (rs : List SearchResult) (r : SearchResult),
        formatResults cands snips = some rs → r ∈ rs →
        ∃ p ∈ cands, r.similarity_score = similarity p.2) := by
  refine ⟨?_, ?_, ?_, ?_, ?_⟩
  · norm_num [similarity]
  · norm_num [similarity]
  · intro d hd
    have h1 : 0 < 1 + d := by linarith
    constructor
    · exact div_pos one_pos h1
    · rw [similarity, div_le_one h1]
      linarith
  · intro d₁ d₂ hd₁ hlt
    exact one_div_lt_one_div_of_lt (by linarith) (by linarith)
  · intro cands
    induction cands with
    | nil =>
        intro snips rs r h hr
        rw [show formatResults [] snips = some [] from rfl] at h
        obtain rfl : ([] : List SearchResult) = rs := Option.some.inj h
        simp at hr
    | cons p rest ih =>
        intro snips rs r h hr
        obtain ⟨idx, dist⟩ := p
        by_cases hlt : idx < (snips.length : Int)
        · simp only [formatResults, if_pos hlt] at h
          cases hpg : pyGet snips idx with
          | none => rw [hpg] at h; simp at h
          | some s =>
              rw [hpg] at h
              obtain ⟨rs', hrs', hcons⟩ := Option.map_eq_some'.mp h
              rw [← hcons] at hr
              rcases List.mem_cons.mp hr with heq | hmem
              · exact ⟨(idx, dist), List.mem_cons_self _ _, by rw [heq]; rfl⟩
              · obtain ⟨q, hq, hscore⟩ := ih snips rs' r hrs' hmem
                exact ⟨q, List.mem_cons_of_mem _ hq, hscore⟩
        · simp only [formatResults, if_neg hlt] at h
          obtain ⟨q, hq, hscore⟩ := ih snips rs r h hr
          exact ⟨q, List.mem_cons_of_mem _ hq, hscore⟩

/-- Witness for C8: at distance 2 the score is strictly positive, at
most 1, and smaller than the score at distance 1. -/
theorem similarity_score_formula_witness :
    (0 < similarity 2 ∧ similarity 2 ≤ 1)
    ∧ similarity 2 < similarity 1 :=
  ⟨similarity_score_formula.2.2.1 2 (by norm_num),
    similarity_score_formula.2.2.2.1 1 2 (by norm_num) (by norm_num)⟩

/-- C9: for an engine with a built index, `save_index` followed by
`load_index` into a fresh instance succeeds and reproduces the
identical SnippetStore content, the identical aggregate counts, and
the saved index handle. -/
theorem save_load_roundtrip {ι : Type} (s s₀ : EngineState ι) (h : ι)
    (hidx : s.faiss_index = some h) :
    (load_index (save_index s) s₀).1 = true
    ∧ (load_index (save_index s) s₀).2.code_snippets = s.code_snippets
    ∧ (load_index (save_index s) s₀).2.total_files_indexed
        = s.total_files_indexed
    ∧ (load_index (save_index s) s₀).2.total_lines_indexed
        = s.total_lines_indexed
    ∧ (load_index (save_index s) s₀).2.total_repositories
        = s.total_repositories
    ∧ (load_index (save_index s) s₀).2.faiss_index = some h := by
  simp [save_index, load_index, hidx]

/-- Witness for C9: a concrete one-snippet engine round-trips its
store and counts into a fresh instance. -/
theorem save_load_roundtrip_witness :
    (load_index
      (save_index (ι := Unit)
        ⟨[{ file := "a.py", repo := "r", content := "pass",
            line_start := 1, line_end := 1 }], some (),
          LRUCache.empty String CacheEntry 1000, MetricsTracker.init,
          1, 2, 3⟩)
      ⟨[], none, LRUCache.empty String CacheEntry 1000,
        MetricsTracker.init, 0, 0, 0⟩).2.code_snippets
      = [{ file := "a.py", repo := "r", content := "pass",
           line_start := 1, line_end := 1 }]
    ∧ (load_index
      (save_index (ι := Unit)
        ⟨[{ file := "a.py", repo := "r", content := "pass",
            line_start := 1, line_end := 1 }], some (),
          LRUCache.empty String CacheEntry 1000, MetricsTracker.init,
          1, 2, 3⟩)
      ⟨[], none, LRUCache.empty String CacheEntry 1000,
        MetricsTracker.init, 0, 0, 0⟩).2.total_repositories = 3 := by
  have h := save_load_roundtrip (ι := Unit)
    ⟨[{ file := "a.py", repo := "r", content := "pass",
        line_start := 1, line_end := 1 }], some (),
      LRUCache.empty String CacheEntry 1000, MetricsTracker.init, 1, 2, 3⟩
    ⟨[], none, LRUCache.empty String CacheEntry 1000,
      MetricsTracker.init, 0, 0, 0⟩ () rfl
  exact ⟨h.2.1, h.2.2.2.2.1⟩

/-- A single `record_query` keeps the history within 1000 records. -/
theorem record_query_history_le (m : MetricsTracker) (q : String) (t : ℚ)
    (c : Bool) (n : String) (h : m.query_history.length ≤ 1000) :
    (m.record_query q t c n).query_history.length ≤ 1000 := by
  simp only [MetricsTracker.record_query]
  split
  · simp only [List.length_drop, List.length_append, List.length_cons,
      List.length_nil]
    omega
  · rename_i hc
    simp only [List.length_append, List.length_cons, List.length_nil,
      not_lt] at hc ⊢
    omega

/-- Any batch of records starting from a bounded history keeps it
bounded. -/
theorem runRecords_history_le (rs : List (String × ℚ × Bool × String)) :
    ∀ m : MetricsTracker, m.query_history.length ≤ 1000 →
      (runRecords rs m).query_history.length ≤ 1000 := by
  induction rs with
  | nil => intro m h; exact h
  | cons r rs ih =>
      intro m h
      obtain ⟨q, t, c, n⟩ := r
      exact ih (m.record_query q t c n) (record_query_history_le m q t c n h)

/-- C10: `get_stats` returns in `recent_queries` exactly the most
recent `min 10 N` records of the internal history (a suffix of length
at most 10), for every tracker state, even though the internal history
itself retains up to 1000 records across any recorded workload. -/
theorem recent_queries_last_ten :
    (∀ m : MetricsTracker,
      (m.get_stats).recent_queries.length = min 10 m.query_history.length
      ∧ List.IsSuffix (m.get_stats).recent_queries m.query_history)
    ∧ (∀ rs : List (String × ℚ × Bool × String),
      (runRecords rs MetricsTracker.init).query_history.length ≤ 1000) := by
  constructor
  · intro m
    constructor
    · simp only [MetricsTracker.get_stats, List.length_drop]
      omega
    · exact List.drop_suffix _ _
  · intro rs
    exact runRecords_history_le rs MetricsTracker.init (by simp [MetricsTracker.init])
